import Mathlib

/-!
Shallow embedding of `src/js/dag-utils.js` (DAG drawing helpers) and proofs
about its geometry layer.  JavaScript numbers are modelled as real numbers;
the drawing surface is modelled by returning the list of emitted primitives
instead of appending them to an SVG node.  Style-only attributes that no
property refers to (markers, dash patterns, opacity, clip ids) are elided;
the geometric attributes and fill/stroke colours are kept.
-/

namespace DagUtils

open Real Set

/-- Result record of `shortenLine` (the JS object `{x1, y1, x2, y2}`). -/
structure Seg where
  x1 : ℝ
  y1 : ℝ
  x2 : ℝ
  y2 : ℝ

/-- Embedding of `shortenLine(x1, y1, x2, y2, padStart, padEnd)`.
The JS default `if (padEnd === undefined) padEnd = padStart` is modelled by
an `Option ℝ` argument. -/
noncomputable def shortenLine (x1 y1 x2 y2 padStart : ℝ) (padEnd : Option ℝ) : Seg :=
  let pe := padEnd.getD padStart
  let dx := x2 - x1
  let dy := y2 - y1
  let len := Real.sqrt (dx * dx + dy * dy)
  { x1 := x1 + dx * (padStart / len)
    y1 := y1 + dy * (padStart / len)
    x2 := x2 - dx * (pe / len)
    y2 := y2 - dy * (pe / len) }

/-- A 2-D point, as used in edge records. -/
structure Point where
  x : ℝ
  y : ℝ

/-- An edge record `{ from, to, strength, blocked }` (the JS field names
`from` and `to` are Lean keywords, hence the primes). -/
structure Edge where
  from' : Point
  to' : Point
  strength : ℝ
  blocked : Bool

/-- Drawing primitives emitted to the scene.  `rect`/`circle`/`line` carry
the geometric attributes set in the source plus the fill/stroke colour. -/
inductive Shape where
  | rect (x y width height : ℝ) (fill : String)
  | circle (cx cy r : ℝ)
  | line (x1 y1 x2 y2 strokeWidth : ℝ) (stroke : String)

/-- Embedding of `areaFraction(h, r)`: fraction of a disk of radius `r`
filled from one edge inward by distance `h`, with `u = h / r - 1`. -/
noncomputable def areaFraction (h r : ℝ) : ℝ :=
  if h ≤ 0 then 0
  else if h ≥ 2 * r then 1
  else
    0.5 + (Real.arcsin (h / r - 1) +
      (h / r - 1) * Real.sqrt (1 - (h / r - 1) * (h / r - 1))) / Real.pi

/-- The bracketed subterm of `areaFraction` as a function of the
substitution variable `u = h / r - 1`. -/
noncomputable def segArea (u : ℝ) : ℝ :=
  Real.arcsin u + u * Real.sqrt (1 - u * u)

/-- The `(lo, hi)` interval state of the bisection loop in `areaToHeight`
after `n` iterations (the JS loop body, iterated from `(0, 2r)`). -/
noncomputable def bisect (frac r : ℝ) : ℕ → ℝ × ℝ
  | 0 => (0, 2 * r)
  | n + 1 =>
    let p := bisect frac r n
    let mid := (p.1 + p.2) / 2
    if areaFraction mid r < frac then (mid, p.2) else (p.1, mid)

/-- Embedding of `areaToHeight(frac, r)`: saturates at the boundaries and
otherwise returns the midpoint of the interval after 30 bisection steps. -/
noncomputable def areaToHeight (frac r : ℝ) : ℝ :=
  if frac ≤ 0 then 0
  else if frac ≥ 1 then 2 * r
  else ((bisect frac r 30).1 + (bisect frac r 30).2) / 2

/-- One colour band `{prop, fill}`. -/
structure Band where
  prop : ℝ
  fill : String

/-- The `bands` argument of `drawNode`; each stack may be absent
(JS `undefined`, defaulted by `bands.bottomUp || []`). -/
structure Bands where
  bottomUp : Option (List Band) := none
  topDown : Option (List Band) := none

/-- JS `a || b` specialised to an optional string default (`undefined` and
the empty string are falsy). -/
def jsOrString : Option String → String → String
  | none, d => d
  | some s, d => if s = "" then d else s

/-- The primary (`bottomUp`) loop of `drawNode`: walks the band list with
accumulator `(cumFrac, prev)` and emits the clipped rectangles. -/
noncomputable def bottomUpRects (horiz : Bool) (cx cy r : ℝ) :
    List Band → ℝ → ℝ → List Shape
  | [], _, _ => []
  | band :: rest, cumFrac, prev =>
    if band.prop > 0.001 then
      let cumFrac' := cumFrac + band.prop
      let extent := areaToHeight (min cumFrac' 1) r
      let size := extent - prev
      (if size > 0.5 then
        (if horiz then
          [Shape.rect (cx - r + prev) (cy - r) size (r * 2) band.fill]
        else
          [Shape.rect (cx - r) (cy + r - extent) (r * 2) size band.fill])
      else []) ++ bottomUpRects horiz cx cy r rest cumFrac' extent
    else
      bottomUpRects horiz cx cy r rest cumFrac prev

/-- The secondary (`topDown`) loop of `drawNode`, growing from the opposite
edge. -/
noncomputable def topDownRects (horiz : Bool) (cx cy r : ℝ) :
    List Band → ℝ → ℝ → List Shape
  | [], _, _ => []
  | band :: rest, cumFrac, prev =>
    if band.prop > 0.001 then
      let cumFrac' := cumFrac + band.prop
      let extent := areaToHeight (min cumFrac' 1) r
      let size := extent - prev
      (if size > 0.5 then
        (if horiz then
          [Shape.rect (cx + r - extent) (cy - r) size (r * 2) band.fill]
        else
          [Shape.rect (cx - r) (cy - r + prev) (r * 2) size band.fill])
      else []) ++ topDownRects horiz cx cy r rest cumFrac' extent
    else
      topDownRects horiz cx cy r rest cumFrac prev

/-- Embedding of `drawNode`: base fill, primary stack, secondary stack,
outline circle, in emission order.  The clip id only names an SVG clip path
and carries no geometry. -/
noncomputable def drawNode (cx cy nodeRadius : ℝ) (clipId : String) (bands : Bands)
    (orientation : String) (baseColor : Option String) : List Shape :=
  let r := nodeRadius
  let diam := r * 2
  let horiz := orientation == "horizontal"
  Shape.rect (cx - r) (cy - r) diam diam (jsOrString baseColor ("#bbb")) ::
    (bottomUpRects horiz cx cy r (bands.bottomUp.getD []) 0 0 ++
      topDownRects horiz cx cy r (bands.topDown.getD []) 0 0 ++
      [Shape.circle cx cy r])

/-- Embedding of `drawEdge`: no-op at strength 0, otherwise the padded main
line followed, when blocked, by the perpendicular bar. -/
noncomputable def drawEdge (edge : Edge) (nodeRadius : ℝ) : List Shape :=
  if edge.strength = 0 then []
  else
    let arrowLen : ℝ := 18
    let gap : ℝ := 6
    let line := shortenLine edge.from'.x edge.from'.y edge.to'.x edge.to'.y
      (nodeRadius + gap) (some (nodeRadius + gap + arrowLen))
    let strokeWidth := 2 + edge.strength * 5
    Shape.line line.x1 line.y1 line.x2 line.y2 strokeWidth
      (if edge.blocked then ("#ccc") else ("#666")) ::
    (if edge.blocked then
      let midX := (line.x1 + line.x2) / 2
      let midY := (line.y1 + line.y2) / 2
      let dx := line.x2 - line.x1
      let dy := line.y2 - line.y1
      let len := Real.sqrt (dx * dx + dy * dy)
      let px := -dy / len
      let py := dx / len
      let barLen : ℝ := 20
      [Shape.line (midX - px * barLen) (midY - py * barLen)
        (midX + px * barLen) (midY + py * barLen) 3.5 ("#E74C3C")]
    else [])

/-! ### Basic evaluation lemmas -/

theorem areaFraction_of_nonpos {h r : ℝ} (hh : h ≤ 0) : areaFraction h r = 0 :=
  if_pos hh

theorem areaFraction_of_ge {h r : ℝ} (hr : 0 < r) (hh : 2 * r ≤ h) :
    areaFraction h r = 1 := by
  rw [areaFraction, if_neg (by linarith), if_pos hh]

theorem areaFraction_of_mem {h r : ℝ} (h0 : 0 < h) (h2 : h < 2 * r) :
    areaFraction h r = 0.5 + segArea (h / r - 1) / Real.pi := by
  rw [areaFraction, if_neg (by linarith), if_neg (not_le.2 h2), segArea]

theorem areaToHeight_of_nonpos {frac r : ℝ} (hf : frac ≤ 0) :
    areaToHeight frac r = 0 :=
  if_pos hf

theorem areaToHeight_of_ge_one {frac r : ℝ} (hf : 1 ≤ frac) :
    areaToHeight frac r = 2 * r := by
  rw [areaToHeight, if_neg (by linarith), if_pos hf]

theorem areaToHeight_of_mem {frac r : ℝ} (h0 : 0 < frac) (h1 : frac < 1) :
    areaToHeight frac r = ((bisect frac r 30).1 + (bisect frac r 30).2) / 2 := by
  rw [areaToHeight, if_neg (not_le.2 h0), if_neg (not_le.2 h1)]

theorem bottomUpRects_low {band : Band} (horiz : Bool) (cx cy r : ℝ)
    (rest : List Band) (cumFrac prev : ℝ) (hp : band.prop ≤ 0.001) :
    bottomUpRects horiz cx cy r (band :: rest) cumFrac prev =
      bottomUpRects horiz cx cy r rest cumFrac prev := by
  rw [bottomUpRects, if_neg (not_lt.2 hp)]

theorem bottomUpRects_high {band : Band} (horiz : Bool) (cx cy r : ℝ)
    (rest : List Band) (cumFrac prev : ℝ) (hp : 0.001 < band.prop) :
    bottomUpRects horiz cx cy r (band :: rest) cumFrac prev =
      (if areaToHeight (min (cumFrac + band.prop) 1) r - prev > 0.5 then
        (if horiz then
          [Shape.rect (cx - r + prev) (cy - r)
            (areaToHeight (min (cumFrac + band.prop) 1) r - prev) (r * 2) band.fill]
        else
          [Shape.rect (cx - r) (cy + r - areaToHeight (min (cumFrac + band.prop) 1) r)
            (r * 2) (areaToHeight (min (cumFrac + band.prop) 1) r - prev) band.fill])
      else []) ++
      bottomUpRects horiz cx cy r rest (cumFrac + band.prop)
        (areaToHeight (min (cumFrac + band.prop) 1) r) := by
  rw [bottomUpRects, if_pos hp]

theorem topDownRects_low {band : Band} (horiz : Bool) (cx cy r : ℝ)
    (rest : List Band) (cumFrac prev : ℝ) (hp : band.prop ≤ 0.001) :
    topDownRects horiz cx cy r (band :: rest) cumFrac prev =
      topDownRects horiz cx cy r rest cumFrac prev := by
  rw [topDownRects, if_neg (not_lt.2 hp)]

theorem topDownRects_high {band : Band} (horiz : Bool) (cx cy r : ℝ)
    (rest : List Band) (cumFrac prev : ℝ) (hp : 0.001 < band.prop) :
    topDownRects horiz cx cy r (band :: rest) cumFrac prev =
      (if areaToHeight (min (cumFrac + band.prop) 1) r - prev > 0.5 then
        (if horiz then
          [Shape.rect (cx + r - areaToHeight (min (cumFrac + band.prop) 1) r) (cy - r)
            (areaToHeight (min (cumFrac + band.prop) 1) r - prev) (r * 2) band.fill]
        else
          [Shape.rect (cx - r) (cy - r + prev) (r * 2)
            (areaToHeight (min (cumFrac + band.prop) 1) r - prev) band.fill])
      else []) ++
      topDownRects horiz cx cy r rest (cumFrac + band.prop)
        (areaToHeight (min (cumFrac + band.prop) 1) r) := by
  rw [topDownRects, if_pos hp]

/-! ### Bisection loop invariants -/

theorem bisect_bounds (frac r : ℝ) (hr : 0 ≤ r) (n : ℕ) :
    0 ≤ (bisect frac r n).1 ∧ (bisect frac r n).1 ≤ (bisect frac r n).2 ∧
      (bisect frac r n).2 ≤ 2 * r := by
  induction n with
  | zero => exact ⟨le_refl 0, by simp [bisect]; linarith, by simp [bisect]⟩
  | succ n ih =>
    obtain ⟨h1, h2, h3⟩ := ih
    simp only [bisect]
    rcases lt_or_le (areaFraction (((bisect frac r n).1 + (bisect frac r n).2) / 2) r) frac
      with hc | hc
    · rw [if_pos hc]
      exact ⟨by simp; linarith, by simp; linarith, by simp; linarith⟩
    · rw [if_neg (not_lt.2 hc)]
      exact ⟨by simp; linarith, by simp; linarith, by simp; linarith⟩

theorem bisect_width (frac r : ℝ) (n : ℕ) :
    (bisect frac r n).2 - (bisect frac r n).1 = 2 * r / 2 ^ n := by
  induction n with
  | zero => simp [bisect]
  | succ n ih =>
    simp only [bisect]
    rw [pow_succ, ← div_div]
    rcases lt_or_le (areaFraction (((bisect frac r n).1 + (bisect frac r n).2) / 2) r) frac
      with hc | hc
    · rw [if_pos hc]; simp; linarith
    · rw [if_neg (not_lt.2 hc)]; simp; linarith

theorem bisect_invariant (frac r : ℝ) (hr : 0 < r) (h0 : 0 < frac) (h1 : frac < 1) (n : ℕ) :
    areaFraction (bisect frac r n).1 r < frac ∧ frac ≤ areaFraction (bisect frac r n).2 r := by
  induction n with
  | zero =>
    refine ⟨?_, ?_⟩
    · show areaFraction 0 r < frac
      rw [areaFraction_of_nonpos le_rfl]; exact h0
    · show frac ≤ areaFraction (2 * r) r
      rw [areaFraction_of_ge hr le_rfl]; exact h1.le
  | succ n ih =>
    simp only [bisect]
    rcases lt_or_le (areaFraction (((bisect frac r n).1 + (bisect frac r n).2) / 2) r) frac
      with hc | hc
    · rw [if_pos hc]; exact ⟨hc, ih.2⟩
    · rw [if_neg (not_lt.2 hc)]; exact ⟨ih.1, hc⟩

/-! ### Claim C2: the forward area function -/

/-- C2: for every `r > 0`, `areaFraction h r` returns `0` for `h ≤ 0`,
`1` for `h ≥ 2r`, and for interior `h` the closed-form value
`0.5 + (asin u + u * sqrt (1 - u^2)) / pi` with `u = h / r - 1`,
saturating at the boundaries rather than erroring. -/
theorem areaFraction_formula (r : ℝ) (hr : 0 < r) (h : ℝ) :
    (h ≤ 0 → areaFraction h r = 0) ∧
    (2 * r ≤ h → areaFraction h r = 1) ∧
    (0 < h → h < 2 * r → areaFraction h r =
      0.5 + (Real.arcsin (h / r - 1) +
        (h / r - 1) * Real.sqrt (1 - (h / r - 1) * (h / r - 1))) / Real.pi) := by
  refine ⟨fun h0 => areaFraction_of_nonpos h0, fun h2 => areaFraction_of_ge hr h2,
    fun h0 h2 => ?_⟩
  rw [areaFraction_of_mem h0 h2, segArea]

/-- Witness for C2 at `r = 1`, `h = 1/2` (the interior case, with every
hypothesis discharged). -/
theorem areaFraction_formula_witness :
    areaFraction (1/2) 1 =
      0.5 + (Real.arcsin ((1:ℝ)/2 / 1 - 1) +
        ((1:ℝ)/2 / 1 - 1) * Real.sqrt (1 - ((1:ℝ)/2 / 1 - 1) * ((1:ℝ)/2 / 1 - 1))) / Real.pi :=
  (areaFraction_formula 1 (by norm_num) (1/2)).2.2 (by norm_num) (by norm_num)

/-! ### Claim C6: shortenLine -/

/-- C6: for distinct endpoints `shortenLine` moves each endpoint inward
along the original direction by its respective pad distance (each moved
endpoint is at exactly the pad distance from the original one), `padEnd`
defaults to `padStart` when omitted, and
`shortenLine(0,0,10,0,2,3) = {x1: 2, y1: 0, x2: 7, y2: 0}`. -/
theorem shortenLine_spec :
    (∀ x1 y1 x2 y2 padStart padEnd : ℝ, (x1, y1) ≠ (x2, y2) →
      (shortenLine x1 y1 x2 y2 padStart (some padEnd) =
        { x1 := x1 + (x2 - x1) *
            (padStart / Real.sqrt ((x2 - x1) * (x2 - x1) + (y2 - y1) * (y2 - y1)))
          y1 := y1 + (y2 - y1) *
            (padStart / Real.sqrt ((x2 - x1) * (x2 - x1) + (y2 - y1) * (y2 - y1)))
          x2 := x2 - (x2 - x1) *
            (padEnd / Real.sqrt ((x2 - x1) * (x2 - x1) + (y2 - y1) * (y2 - y1)))
          y2 := y2 - (y2 - y1) *
            (padEnd / Real.sqrt ((x2 - x1) * (x2 - x1) + (y2 - y1) * (y2 - y1))) }) ∧
      ((shortenLine x1 y1 x2 y2 padStart (some padEnd)).x1 - x1) ^ 2 +
        ((shortenLine x1 y1 x2 y2 padStart (some padEnd)).y1 - y1) ^ 2 = padStart ^ 2 ∧
      ((shortenLine x1 y1 x2 y2 padStart (some padEnd)).x2 - x2) ^ 2 +
        ((shortenLine x1 y1 x2 y2 padStart (some padEnd)).y2 - y2) ^ 2 = padEnd ^ 2) ∧
    (∀ x1 y1 x2 y2 p : ℝ, shortenLine x1 y1 x2 y2 p none = shortenLine x1 y1 x2 y2 p (some p)) ∧
    shortenLine 0 0 10 0 2 (some 3) = { x1 := 2, y1 := 0, x2 := 7, y2 := 0 } := by
  have sqrt100 : Real.sqrt 100 = 10 := by
    rw [show (100:ℝ) = 10 ^ 2 by norm_num]
    exact Real.sqrt_sq (by norm_num)
  refine ⟨fun x1 y1 x2 y2 ps pe hne => ?_, fun _ _ _ _ _ => rfl, ?_⟩
  · have hd : x2 - x1 ≠ 0 ∨ y2 - y1 ≠ 0 := by
      by_contra hcc
      push_neg at hcc
      apply hne
      have hx : x1 = x2 := by linarith [hcc.1]
      have hy : y1 = y2 := by linarith [hcc.2]
      rw [hx, hy]
    have hpos : 0 < (x2 - x1) * (x2 - x1) + (y2 - y1) * (y2 - y1) := by
      rcases hd with hh | hh
      · have := mul_self_pos.2 hh
        nlinarith [mul_self_nonneg (y2 - y1)]
      · have := mul_self_pos.2 hh
        nlinarith [mul_self_nonneg (x2 - x1)]
    have hlen : Real.sqrt ((x2 - x1) * (x2 - x1) + (y2 - y1) * (y2 - y1)) ≠ 0 :=
      (Real.sqrt_pos.2 hpos).ne'
    have hsq : Real.sqrt ((x2 - x1) * (x2 - x1) + (y2 - y1) * (y2 - y1)) ^ 2 =
        (x2 - x1) * (x2 - x1) + (y2 - y1) * (y2 - y1) :=
      Real.sq_sqrt hpos.le
    set A := (x2 - x1) * (x2 - x1) + (y2 - y1) * (y2 - y1) with hA
    refine ⟨rfl, ?_, ?_⟩
    · show (x1 + (x2 - x1) * (ps / Real.sqrt A) - x1) ^ 2 +
        (y1 + (y2 - y1) * (ps / Real.sqrt A) - y1) ^ 2 = ps ^ 2
      have key : (x1 + (x2 - x1) * (ps / Real.sqrt A) - x1) ^ 2 +
          (y1 + (y2 - y1) * (ps / Real.sqrt A) - y1) ^ 2 = A * (ps / Real.sqrt A) ^ 2 := by
        rw [hA]; ring
      rw [key, div_pow, hsq, mul_div_assoc', mul_div_cancel_left₀ _ hpos.ne']
    · show (x2 - (x2 - x1) * (pe / Real.sqrt A) - x2) ^ 2 +
        (y2 - (y2 - y1) * (pe / Real.sqrt A) - y2) ^ 2 = pe ^ 2
      have key : (x2 - (x2 - x1) * (pe / Real.sqrt A) - x2) ^ 2 +
          (y2 - (y2 - y1) * (pe / Real.sqrt A) - y2) ^ 2 = A * (pe / Real.sqrt A) ^ 2 := by
        rw [hA]; ring
      rw [key, div_pow, hsq, mul_div_assoc', mul_div_cancel_left₀ _ hpos.ne']
  · show Seg.mk _ _ _ _ = _
    norm_num [shortenLine, Seg.mk.injEq, sqrt100]

/-- Witness for C6: the distinctness hypothesis holds at the concrete
endpoints of the spec's example, and the start point moves by distance 2. -/
theorem shortenLine_spec_witness :
    ((0:ℝ), (0:ℝ)) ≠ ((10:ℝ), (0:ℝ)) ∧
    ((shortenLine 0 0 10 0 2 (some 3)).x1 - 0) ^ 2 +
      ((shortenLine 0 0 10 0 2 (some 3)).y1 - 0) ^ 2 = 2 ^ 2 :=
  ⟨by norm_num [Prod.ext_iff],
    (shortenLine_spec.1 0 0 10 0 2 3 (by norm_num [Prod.ext_iff])).2.1⟩

/-! ### Claim C7: blocked edges -/

/-- C7: a blocked edge with nonzero strength emits the main padded line plus
exactly one perpendicular bar whose endpoints are the padded segment's
midpoint offset by the fixed half-length 20 in both directions along the
unit normal `(-dy, dx) / len`. -/
theorem drawEdge_blocked_bar (edge : Edge) (nodeRadius : ℝ)
    (hb : edge.blocked = true) (hs : edge.strength ≠ 0) :
    drawEdge edge nodeRadius =
      (let L := shortenLine edge.from'.x edge.from'.y edge.to'.x edge.to'.y
        (nodeRadius + 6) (some (nodeRadius + 6 + 18))
      let len := Real.sqrt ((L.x2 - L.x1) * (L.x2 - L.x1) + (L.y2 - L.y1) * (L.y2 - L.y1))
      [Shape.line L.x1 L.y1 L.x2 L.y2 (2 + edge.strength * 5) ("#ccc"),
        Shape.line ((L.x1 + L.x2) / 2 - -(L.y2 - L.y1) / len * 20)
          ((L.y1 + L.y2) / 2 - (L.x2 - L.x1) / len * 20)
          ((L.x1 + L.x2) / 2 + -(L.y2 - L.y1) / len * 20)
          ((L.y1 + L.y2) / 2 + (L.x2 - L.x1) / len * 20) 3.5 ("#E74C3C")]) := by
  simp only [drawEdge, hb, if_true]
  rw [if_neg hs]

/-- Witness for C7 at a concrete blocked edge of strength 1. -/
theorem drawEdge_blocked_bar_witness :
    (Edge.mk ⟨0, 0⟩ ⟨100, 0⟩ 1 true).blocked = true ∧
    (Edge.mk ⟨0, 0⟩ ⟨100, 0⟩ 1 true).strength ≠ 0 ∧
    drawEdge (Edge.mk ⟨0, 0⟩ ⟨100, 0⟩ 1 true) 4 =
      (let L := shortenLine (0:ℝ) 0 100 0 (4 + 6) (some (4 + 6 + 18))
      let len := Real.sqrt ((L.x2 - L.x1) * (L.x2 - L.x1) + (L.y2 - L.y1) * (L.y2 - L.y1))
      [Shape.line L.x1 L.y1 L.x2 L.y2 (2 + 1 * 5) ("#ccc"),
        Shape.line ((L.x1 + L.x2) / 2 - -(L.y2 - L.y1) / len * 20)
          ((L.y1 + L.y2) / 2 - (L.x2 - L.x1) / len * 20)
          ((L.x1 + L.x2) / 2 + -(L.y2 - L.y1) / len * 20)
          ((L.y1 + L.y2) / 2 + (L.x2 - L.x1) / len * 20) 3.5 ("#E74C3C")]) :=
  ⟨rfl, by norm_num, drawEdge_blocked_bar (Edge.mk ⟨0, 0⟩ ⟨100, 0⟩ 1 true) 4 rfl (by norm_num)⟩

/-! ### Claim C8: the inverse terminates in exactly 30 bisection steps -/

/-- C8: `areaToHeight` saturates at the boundaries (`frac ≤ 0 → 0`,
`frac ≥ 1 → 2r`) and for interior fractions returns the midpoint of the
interval reached after exactly 30 bisection iterations started from
`[0, 2r]`, a value that lies in `[0, 2r]`. -/
theorem areaToHeight_bisection (frac r : ℝ) (hr : 0 < r) :
    (frac ≤ 0 → areaToHeight frac r = 0) ∧
    (1 ≤ frac → areaToHeight frac r = 2 * r) ∧
    (0 < frac → frac < 1 →
      areaToHeight frac r = ((bisect frac r 30).1 + (bisect frac r 30).2) / 2 ∧
      0 ≤ areaToHeight frac r ∧ areaToHeight frac r ≤ 2 * r) := by
  refine ⟨fun h0 => areaToHeight_of_nonpos h0, fun h1 => areaToHeight_of_ge_one h1,
    fun h0 h1 => ?_⟩
  obtain ⟨b1, b2, b3⟩ := bisect_bounds frac r hr.le 30
  rw [areaToHeight_of_mem h0 h1]
  exact ⟨rfl, by linarith, by linarith⟩

/-- Witness for C8 at `frac = 1/2`, `r = 1`. -/
theorem areaToHeight_bisection_witness :
    areaToHeight (1/2) 1 = ((bisect (1/2) 1 30).1 + (bisect (1/2) 1 30).2) / 2 ∧
    0 ≤ areaToHeight (1/2) 1 ∧ areaToHeight (1/2) 1 ≤ 2 * 1 :=
  (areaToHeight_bisection (1/2) 1 (by norm_num)).2.2 (by norm_num) (by norm_num)

/-! ### Claim C10: missing band stacks -/

/-- C10: a missing `bottomUp`/`topDown` stack behaves as an empty list, and
with both stacks missing `drawNode` still emits the base fill and the
outline circle without error. -/
theorem drawNode_missing_bands (cx cy r : ℝ) (clip : String) (bu td : Option (List Band))
    (o : String) (base : Option String) :
    drawNode cx cy r clip ⟨none, td⟩ o base = drawNode cx cy r clip ⟨some [], td⟩ o base ∧
    drawNode cx cy r clip ⟨bu, none⟩ o base = drawNode cx cy r clip ⟨bu, some []⟩ o base ∧
    drawNode cx cy r clip ⟨none, none⟩ o base =
      [Shape.rect (cx - r) (cy - r) (r * 2) (r * 2) (jsOrString base ("#bbb")),
        Shape.circle cx cy r] :=
  ⟨rfl, rfl, rfl⟩

/-! ### Claim C5: per-band semantics of the stacking loops -/

/-- C5 counterexample: a band whose proportion is below the 0.001 threshold
is skipped entirely — the running cumulative fraction and extent are left
unchanged, so the geometry of every subsequent band is identical to the run
without that band, contradicting the claim that such a band still shifts
the positions of subsequent bands. -/
theorem bandStep_subthreshold_counterexample :
    bottomUpRects false 0 0 10 [⟨1/2000, ("a")⟩, ⟨1/2, ("b")⟩] 0 0 =
      bottomUpRects false 0 0 10 [⟨1/2, ("b")⟩] 0 0 :=
  bottomUpRects_low false 0 0 10 [⟨1/2, ("b")⟩] 0 0 (by norm_num)

/-- C5 amended: in both stacking loops, a band with proportion `> 0.001`
always advances the cumulative fraction (clamped to 1 before the
`areaToHeight` lookup) and the extent — only the rectangle emission is
conditional on the 0.5-unit minimum size — while a band with proportion
`≤ 0.001` is skipped entirely, leaving cumulative fraction and extent (and
hence all subsequent bands) unchanged. -/
theorem bandStep_semantics (horiz : Bool) (cx cy r : ℝ) (band : Band)
    (rest : List Band) (cumFrac prev : ℝ) :
    (band.prop ≤ 0.001 →
      bottomUpRects horiz cx cy r (band :: rest) cumFrac prev =
        bottomUpRects horiz cx cy r rest cumFrac prev ∧
      topDownRects horiz cx cy r (band :: rest) cumFrac prev =
        topDownRects horiz cx cy r rest cumFrac prev) ∧
    (0.001 < band.prop →
      bottomUpRects horiz cx cy r (band :: rest) cumFrac prev =
        (if areaToHeight (min (cumFrac + band.prop) 1) r - prev > 0.5 then
          (if horiz then
            [Shape.rect (cx - r + prev) (cy - r)
              (areaToHeight (min (cumFrac + band.prop) 1) r - prev) (r * 2) band.fill]
          else
            [Shape.rect (cx - r) (cy + r - areaToHeight (min (cumFrac + band.prop) 1) r)
              (r * 2) (areaToHeight (min (cumFrac + band.prop) 1) r - prev) band.fill])
        else []) ++
        bottomUpRects horiz cx cy r rest (cumFrac + band.prop)
          (areaToHeight (min (cumFrac + band.prop) 1) r) ∧
      topDownRects horiz cx cy r (band :: rest) cumFrac prev =
        (if areaToHeight (min (cumFrac + band.prop) 1) r - prev > 0.5 then
          (if horiz then
            [Shape.rect (cx + r - areaToHeight (min (cumFrac + band.prop) 1) r) (cy - r)
              (areaToHeight (min (cumFrac + band.prop) 1) r - prev) (r * 2) band.fill]
          else
            [Shape.rect (cx - r) (cy - r + prev) (r * 2)
              (areaToHeight (min (cumFrac + band.prop) 1) r - prev) band.fill])
        else []) ++
        topDownRects horiz cx cy r rest (cumFrac + band.prop)
          (areaToHeight (min (cumFrac + band.prop) 1) r)) :=
  ⟨fun hp => ⟨bottomUpRects_low horiz cx cy r rest cumFrac prev hp,
      topDownRects_low horiz cx cy r rest cumFrac prev hp⟩,
    fun hp => ⟨bottomUpRects_high horiz cx cy r rest cumFrac prev hp,
      topDownRects_high horiz cx cy r rest cumFrac prev hp⟩⟩

/-- Witness for C5 at a concrete sub-threshold band. -/
theorem bandStep_semantics_witness :
    ((⟨1/2000, ("a")⟩ : Band).prop ≤ 0.001) ∧
    bottomUpRects true 0 0 1 [⟨1/2000, ("a")⟩] 5 7 = bottomUpRects true 0 0 1 [] 5 7 :=
  ⟨by norm_num,
    ((bandStep_semantics true 0 0 1 ⟨1/2000, ("a")⟩ [] 5 7).1 (by norm_num)).1⟩

/-! ### Claim C9: behaviour on precondition-violating input -/

/-- C9 counterexample: a negative radius is not rejected — `drawNode`
returns the usual primitive list (with degenerate geometry) instead of
failing. -/
theorem drawNode_negative_radius_counterexample :
    drawNode 0 0 (-1) ("clip") ⟨none, none⟩ ("vertical") none =
      [Shape.rect 1 1 (-2) (-2) ("#bbb"), Shape.circle 0 0 (-1)] := by
  norm_num [drawNode, bottomUpRects, topDownRects, jsOrString]

/-- C9 amended: the source performs no input validation.  A negative radius
still yields the base fill and outline (degenerate geometry), and a
proportion outside `[0, 1]` is silently clamped by the `min (cumFrac, 1)`
lookup to a full-disk band; neither input makes the operation fail. -/
theorem drawNode_no_validation (cx cy r : ℝ) (hr : r < 0) :
    drawNode cx cy r ("clip") ⟨none, none⟩ ("vertical") none =
      [Shape.rect (cx - r) (cy - r) (r * 2) (r * 2) ("#bbb"), Shape.circle cx cy r] ∧
    drawNode 0 0 10 ("clip") ⟨some [⟨2, ("x")⟩], none⟩ ("vertical") none =
      [Shape.rect (-10) (-10) 20 20 ("#bbb"), Shape.rect (-10) (-10) 20 20 ("x"),
        Shape.circle 0 0 10] := by
  refine ⟨rfl, ?_⟩
  norm_num [drawNode, bottomUpRects, topDownRects, jsOrString, min_def,
    areaToHeight_of_ge_one]

/-- Witness for C9 at radius `-1`. -/
theorem drawNode_no_validation_witness :
    drawNode 0 0 (-1) ("clip") ⟨none, none⟩ ("vertical") none =
      [Shape.rect (0 - -1) (0 - -1) (-1 * 2) (-1 * 2) ("#bbb"), Shape.circle 0 0 (-1)] :=
  (drawNode_no_validation 0 0 (-1) (by norm_num)).1

/-! ### Claim C4 counterexample: small radii suppress emission -/

/-- C4 counterexample: at radius `1/5` a single full-proportion band yields
extent `2r = 2/5 ≤ 0.5`, so no band rectangle at all is emitted — the claim
that the emitted rectangle spans the full diameter fails for this radius. -/
theorem drawNode_band_minsize_counterexample :
    drawNode 0 0 (1/5) ("clip") ⟨some [⟨1, ("a")⟩], none⟩ ("vertical") none =
      [Shape.rect (-(1/5)) (-(1/5)) (2/5) (2/5) ("#bbb"), Shape.circle 0 0 (1/5)] := by
  norm_num [drawNode, bottomUpRects, topDownRects, jsOrString, min_def,
    areaToHeight_of_ge_one]

/-! ### Analysis of `segArea`: derivative, monotonicity, Lipschitz bound -/

theorem segArea_continuous : Continuous segArea :=
  Real.continuous_arcsin.add (continuous_id.mul
    ((continuous_const.sub (continuous_id.mul continuous_id)).sqrt))

theorem segArea_hasDerivAt {u : ℝ} (h1 : -1 < u) (h2 : u < 1) :
    HasDerivAt segArea (2 * Real.sqrt (1 - u * u)) u := by
  have hne1 : u ≠ -1 := h1.ne'
  have hne2 : u ≠ 1 := h2.ne
  have hpos : 0 < 1 - u * u := by nlinarith
  have hs : 0 < Real.sqrt (1 - u * u) := Real.sqrt_pos.2 hpos
  have hs2 : Real.sqrt (1 - u * u) ^ 2 = 1 - u * u := Real.sq_sqrt hpos.le
  have harcsin : HasDerivAt Real.arcsin (1 / Real.sqrt (1 - u ^ 2)) u :=
    Real.hasDerivAt_arcsin hne1 hne2
  have hinner : HasDerivAt (fun x : ℝ => 1 - x * x) (0 - (1 * u + u * 1)) u :=
    (hasDerivAt_const u 1).sub ((hasDerivAt_id u).mul (hasDerivAt_id u))
  have hsqrt : HasDerivAt (fun x : ℝ => Real.sqrt (1 - x * x))
      ((0 - (1 * u + u * 1)) / (2 * Real.sqrt (1 - u * u))) u :=
    hinner.sqrt hpos.ne'
  have hmul : HasDerivAt (fun x : ℝ => x * Real.sqrt (1 - x * x))
      (1 * Real.sqrt (1 - u * u) +
        u * ((0 - (1 * u + u * 1)) / (2 * Real.sqrt (1 - u * u)))) u :=
    (hasDerivAt_id u).mul hsqrt
  have hsum := harcsin.add hmul
  have hrw : (1:ℝ) - u ^ 2 = 1 - u * u := by ring
  rw [hrw] at hsum
  convert hsum using 1
  field_simp
  nlinarith [hs2]

theorem segArea_monotoneOn : MonotoneOn segArea (Icc (-1:ℝ) 1) := by
  apply monotoneOn_of_deriv_nonneg (convex_Icc _ _) segArea_continuous.continuousOn
  · intro x hx
    rw [interior_Icc] at hx
    exact (segArea_hasDerivAt hx.1 hx.2).differentiableAt.differentiableWithinAt
  · intro x hx
    rw [interior_Icc] at hx
    rw [(segArea_hasDerivAt hx.1 hx.2).deriv]
    positivity

theorem segArea_neg_one : segArea (-1) = -(Real.pi / 2) := by
  rw [segArea, Real.arcsin_neg_one]
  norm_num

theorem segArea_one : segArea 1 = Real.pi / 2 := by
  rw [segArea, Real.arcsin_one]
  norm_num

theorem segArea_zero : segArea 0 = 0 := by
  rw [segArea, Real.arcsin_zero]
  norm_num

theorem segArea_sub_le {a b : ℝ} (ha : -1 ≤ a) (hab : a ≤ b) (hb : b ≤ 1) :
    segArea b - segArea a ≤ 2 * (b - a) := by
  rcases eq_or_lt_of_le hab with rfl | hlt
  · simp
  · obtain ⟨c, hc, hceq⟩ := exists_hasDerivAt_eq_slope segArea
      (fun x => 2 * Real.sqrt (1 - x * x)) hlt segArea_continuous.continuousOn
      (fun x hx => segArea_hasDerivAt (by linarith [hx.1]) (by linarith [hx.2]))
    have hs1 : Real.sqrt (1 - c * c) ≤ 1 := Real.sqrt_le_one.2 (by nlinarith [mul_self_nonneg c])
    have hslope : (segArea b - segArea a) / (b - a) ≤ 2 := by
      rw [← hceq]
      nlinarith [Real.sqrt_nonneg (1 - c * c)]
    rw [div_le_iff (by linarith)] at hslope
    linarith

theorem segArea_lower {h : ℝ} (h0 : 0 < h) (h1 : h ≤ 1) :
    -(Real.pi / 2) + h * Real.sqrt (h / 2) ≤ segArea (-1 + h) := by
  have hab : (-1 + h / 2 : ℝ) < -1 + h := by linarith
  obtain ⟨c, hc, hceq⟩ := exists_hasDerivAt_eq_slope segArea
    (fun x => 2 * Real.sqrt (1 - x * x)) hab segArea_continuous.continuousOn
    (fun x hx => segArea_hasDerivAt (by linarith [hx.1]) (by linarith [hx.2]))
  have hc1 : -1 + h / 2 < c := hc.1
  have hc2 : c < -1 + h := hc.2
  have key : Real.sqrt (h / 2) ≤ Real.sqrt (1 - c * c) := by
    apply Real.sqrt_le_sqrt
    nlinarith
  have hmem1 : (-1 : ℝ) ∈ Icc (-1:ℝ) 1 := ⟨le_refl _, by norm_num⟩
  have hmem2 : (-1 + h / 2 : ℝ) ∈ Icc (-1:ℝ) 1 := ⟨by linarith, by linarith⟩
  have hmono := segArea_monotoneOn hmem1 hmem2 (by linarith)
  rw [segArea_neg_one] at hmono
  have hdiff : segArea (-1 + h) - segArea (-1 + h / 2) =
      2 * Real.sqrt (1 - c * c) * (h / 2) := by
    have hne : ((-1 + h) - (-1 + h / 2) : ℝ) ≠ 0 := by linarith
    have := (eq_div_iff hne).1 hceq
    nlinarith [this]
  nlinarith [mul_le_mul_of_nonneg_left key h0.le]

/-! ### The area function on `[0, 2r]` -/

theorem areaFraction_eq_formula {r h : ℝ} (hr : 0 < r) (hmem : h ∈ Icc 0 (2 * r)) :
    areaFraction h r = 0.5 + segArea (h / r - 1) / Real.pi := by
  obtain ⟨hl, hu⟩ := hmem
  have hhalf : -(Real.pi / 2) / Real.pi = -(1/2) := by
    rw [div_eq_iff Real.pi_ne_zero]; ring
  have hhalf' : (Real.pi / 2) / Real.pi = 1/2 := by
    rw [div_eq_iff Real.pi_ne_zero]; ring
  rcases eq_or_lt_of_le hl with heq | h0
  · rw [← heq, areaFraction_of_nonpos le_rfl,
      show (0:ℝ) / r - 1 = -1 by rw [zero_div]; ring, segArea_neg_one, hhalf]
    norm_num
  · rcases eq_or_lt_of_le hu with heq | h2
    · rw [heq, areaFraction_of_ge hr le_rfl,
        show (2 * r) / r - 1 = 1 by field_simp; norm_num, segArea_one, hhalf']
      norm_num
    · exact areaFraction_of_mem h0 h2

theorem areaFraction_monotoneOn {r : ℝ} (hr : 0 < r) :
    MonotoneOn (fun h => areaFraction h r) (Icc 0 (2 * r)) := by
  intro x hx y hy hxy
  have hux : x / r - 1 ∈ Icc (-1:ℝ) 1 := by
    constructor
    · have : 0 ≤ x / r := div_nonneg hx.1 hr.le
      linarith
    · have : x / r ≤ 2 := by rw [div_le_iff hr]; linarith [hx.2]
      linarith
  have huy : y / r - 1 ∈ Icc (-1:ℝ) 1 := by
    constructor
    · have : 0 ≤ y / r := div_nonneg hy.1 hr.le
      linarith
    · have : y / r ≤ 2 := by rw [div_le_iff hr]; linarith [hy.2]
      linarith
  have hle : x / r - 1 ≤ y / r - 1 := by
    have : x / r ≤ y / r := (div_le_div_right hr).2 hxy
    linarith
  have hseg := segArea_monotoneOn hux huy hle
  show areaFraction x r ≤ areaFraction y r
  rw [areaFraction_eq_formula hr hx, areaFraction_eq_formula hr hy]
  exact add_le_add_left ((div_le_div_right Real.pi_pos).2 hseg) 0.5

theorem areaFraction_self {r : ℝ} (hr : 0 < r) : areaFraction r r = 0.5 := by
  rw [areaFraction_of_mem hr (by linarith),
    show r / r - 1 = 0 by field_simp, segArea_zero]
  norm_num

/-! ### Claim C3: monotonicity and anchor values -/

/-- C3: for every `r > 0`, `areaFraction` is monotone non-decreasing in `h`
on `[0, 2r]`, with `areaFraction 0 r = 0`, `areaFraction (2r) r = 1` and
`areaFraction r r = 0.5`. -/
theorem areaFraction_monotone_values (r : ℝ) (hr : 0 < r) :
    MonotoneOn (fun h => areaFraction h r) (Icc 0 (2 * r)) ∧
    areaFraction 0 r = 0 ∧ areaFraction (2 * r) r = 1 ∧ areaFraction r r = 0.5 :=
  ⟨areaFraction_monotoneOn hr, areaFraction_of_nonpos le_rfl,
    areaFraction_of_ge hr le_rfl, areaFraction_self hr⟩

/-- Witness for C3 at `r = 1`. -/
theorem areaFraction_monotone_values_witness :
    MonotoneOn (fun h => areaFraction h 1) (Icc 0 (2 * 1)) ∧
    areaFraction 0 1 = 0 ∧ areaFraction (2 * 1) 1 = 1 ∧ areaFraction 1 1 = 0.5 :=
  areaFraction_monotone_values 1 (by norm_num)

/-! ### Claim C1: the round trip through the forward area function -/

/-- C1 amended: for every `fraction ∈ [0,1]` and `r > 0` the round trip
`areaFraction (areaToHeight fraction r) r` returns `fraction` within `1e-4`
ABSOLUTE tolerance (the 30-step bisection in fact guarantees error at most
`4 / (pi * 2^30)`); the originally claimed relative tolerance fails for
tiny fractions. -/
theorem areaToHeight_roundTrip (frac r : ℝ) (hr : 0 < r)
    (h0 : 0 ≤ frac) (h1 : frac ≤ 1) :
    |areaFraction (areaToHeight frac r) r - frac| ≤ 1 / 10000 := by
  rcases eq_or_lt_of_le h0 with heq | hpos
  · rw [← heq, areaToHeight_of_nonpos le_rfl, areaFraction_of_nonpos le_rfl]
    norm_num
  rcases eq_or_lt_of_le h1 with heq | hlt
  · rw [heq, areaToHeight_of_ge_one le_rfl, areaFraction_of_ge hr le_rfl]
    norm_num
  obtain ⟨b0, bl, b2⟩ := bisect_bounds frac r hr.le 30
  have bw := bisect_width frac r 30
  obtain ⟨il, ih⟩ := bisect_invariant frac r hr hpos hlt 30
  set lo := (bisect frac r 30).1 with hlodef
  set hi := (bisect frac r 30).2 with hhidef
  have hm : areaToHeight frac r = (lo + hi) / 2 := areaToHeight_of_mem hpos hlt
  have memlo : lo ∈ Icc (0:ℝ) (2 * r) := ⟨b0, by linarith⟩
  have memhi : hi ∈ Icc (0:ℝ) (2 * r) := ⟨by linarith, b2⟩
  have memm : (lo + hi) / 2 ∈ Icc (0:ℝ) (2 * r) := ⟨by linarith, by linarith⟩
  have mono := areaFraction_monotoneOn hr
  have a1 : areaFraction lo r ≤ areaFraction ((lo + hi) / 2) r :=
    mono memlo memm (by linarith)
  have a2 : areaFraction ((lo + hi) / 2) r ≤ areaFraction hi r :=
    mono memm memhi (by linarith)
  have hul : -1 ≤ lo / r - 1 := by
    have : 0 ≤ lo / r := div_nonneg b0 hr.le
    linarith
  have huh : hi / r - 1 ≤ 1 := by
    have : hi / r ≤ 2 := by rw [div_le_iff hr]; linarith
    linarith
  have hule : lo / r - 1 ≤ hi / r - 1 := by
    have : lo / r ≤ hi / r := (div_le_div_right hr).2 bl
    linarith
  have hlip := segArea_sub_le hul hule huh
  have hdiffu : (hi / r - 1) - (lo / r - 1) = (hi - lo) / r := by ring
  have step : areaFraction hi r - areaFraction lo r ≤ 2 * ((hi - lo) / r) / Real.pi := by
    rw [areaFraction_eq_formula hr memhi, areaFraction_eq_formula hr memlo]
    have expand : (0.5 + segArea (hi / r - 1) / Real.pi) -
        (0.5 + segArea (lo / r - 1) / Real.pi) =
        (segArea (hi / r - 1) - segArea (lo / r - 1)) / Real.pi := by ring
    rw [expand]
    apply (div_le_div_right Real.pi_pos).2
    linarith [hlip, hdiffu]
  have numbound : 2 * ((hi - lo) / r) / Real.pi ≤ 1 / 10000 := by
    have hwr : (hi - lo) / r = 2 / 2 ^ 30 := by
      rw [bw]
      field_simp
      ring
    rw [hwr, div_le_iff Real.pi_pos]
    nlinarith [Real.pi_gt_three]
  rw [hm, abs_le]
  constructor <;> linarith

/-- Witness for C1 (amended) at `fraction = 1/2`, `r = 1`. -/
theorem areaToHeight_roundTrip_witness :
    |areaFraction (areaToHeight (1/2) 1) 1 - 1/2| ≤ 1 / 10000 :=
  areaToHeight_roundTrip (1/2) 1 (by norm_num) (by norm_num) (by norm_num)

/-- Lower bound on `areaFraction` near the edge of a unit disk, used to
exhibit the failure of the relative-tolerance round trip. -/
theorem areaFraction_one_lower {h : ℝ} (h0 : 0 < h) (h1 : h ≤ 1) :
    h * Real.sqrt (h / 2) / Real.pi ≤ areaFraction h 1 := by
  rw [areaFraction_of_mem h0 (by linarith)]
  have hlow := segArea_lower h0 h1
  rw [show h / 1 - 1 = -1 + h by ring]
  have key : 0.5 + (-(Real.pi / 2) + h * Real.sqrt (h / 2)) / Real.pi =
      h * Real.sqrt (h / 2) / Real.pi := by
    field_simp
    ring
  calc h * Real.sqrt (h / 2) / Real.pi
      = 0.5 + (-(Real.pi / 2) + h * Real.sqrt (h / 2)) / Real.pi := key.symm
    _ ≤ 0.5 + segArea (-1 + h) / Real.pi :=
        add_le_add_left ((div_le_div_right Real.pi_pos).2 hlow) 0.5

/-- For the tiny target fraction `2^-100` on the unit disk every bisection
midpoint lies above the target, so the interval keeps its left end at 0. -/
theorem bisect_tiny : ∀ n : ℕ, n ≤ 30 → bisect (1/2^100) 1 n = (0, 2 / 2 ^ n) := by
  intro n
  induction n with
  | zero => intro _; norm_num [bisect]
  | succ n ih =>
    intro hn
    have hn29 : n ≤ 29 := by omega
    simp only [bisect]
    rw [ih (by omega)]
    have h2n : (2:ℝ) ^ n ≠ 0 := by positivity
    have hmid : (((0:ℝ), 2 / 2 ^ n).1 + ((0:ℝ), 2 / 2 ^ n).2) / 2 = 1 / 2 ^ n := by
      show ((0:ℝ) + 2 / 2 ^ n) / 2 = 1 / 2 ^ n
      field_simp
      ring
    have hge : (1:ℝ)/2^100 ≤ areaFraction ((((0:ℝ), 2 / 2 ^ n).1 + ((0:ℝ), 2 / 2 ^ n).2) / 2) 1 := by
      rw [hmid]
      have hexp : (2:ℝ) ^ n ≤ 2 ^ 29 := pow_le_pow_right (by norm_num) hn29
      have hlow : (1:ℝ)/2^29 ≤ 1/2^n :=
        one_div_le_one_div_of_le (by positivity) hexp
      have hle1 : (1:ℝ)/2^n ≤ 1 := by
        rw [div_le_one (by positivity)]
        calc (1:ℝ) = 2 ^ (0:ℕ) := by norm_num
          _ ≤ 2 ^ n := pow_le_pow_right (by norm_num) (Nat.zero_le n)
      have mem1 : (1:ℝ)/2^29 ∈ Icc (0:ℝ) (2 * 1) := ⟨by positivity, by norm_num⟩
      have mem2 : (1:ℝ)/2^n ∈ Icc (0:ℝ) (2 * 1) := ⟨by positivity, by linarith⟩
      have mono := areaFraction_monotoneOn (show (0:ℝ) < 1 by norm_num) mem1 mem2 hlow
      have lower := areaFraction_one_lower (show (0:ℝ) < 1/2^29 by positivity)
        (by norm_num)
      have hsqrt : (1:ℝ)/2^15 ≤ Real.sqrt ((1/2^29) / 2) :=
        Real.le_sqrt_of_sq_le (by norm_num)
      have h1 : (1:ℝ)/2^100 ≤ (1/2^29) * (1/2^15) / Real.pi := by
        rw [le_div_iff Real.pi_pos]
        nlinarith [Real.pi_lt_d2]
      have h2 : (1/2^29) * (1/2^15) / Real.pi ≤
          (1/2^29) * Real.sqrt ((1/2^29) / 2) / Real.pi :=
        (div_le_div_right Real.pi_pos).2
          (mul_le_mul_of_nonneg_left hsqrt (by positivity))
      have mono' : areaFraction (1/2^29) 1 ≤ areaFraction (1/2^n) 1 := mono
      linarith
    rw [if_neg (not_lt.2 hge)]
    have : ((((0:ℝ), 2 / 2 ^ n).1 + ((0:ℝ), 2 / 2 ^ n).2) / 2) = 2 / 2 ^ (n + 1) := by
      show ((0:ℝ) + 2 / 2 ^ n) / 2 = 2 / 2 ^ (n + 1)
      rw [pow_succ]
      field_simp
    rw [this]

/-- The bisection result for the tiny fraction `2^-100` on the unit disk. -/
theorem areaToHeight_tiny : areaToHeight (1/2^100) 1 = 1 / 2 ^ 30 := by
  rw [areaToHeight_of_mem (by positivity) (by norm_num), bisect_tiny 30 le_rfl]
  show ((0:ℝ) + 2 / 2 ^ 30) / 2 = 1 / 2 ^ 30
  norm_num

/-- C1 counterexample: at `fraction = 2^-100`, `r = 1` the round trip
returns `areaFraction (2^-30) 1 ≥ 2^-48`, which is off by far more than
`1e-4` RELATIVE tolerance (the claimed bound is `1e-4 * 2^-100`). -/
theorem roundTrip_relative_counterexample :
    ¬ |areaFraction (areaToHeight (1/2^100) 1) 1 - 1/2^100| ≤ 1/10000 * (1/2^100) := by
  rw [areaToHeight_tiny]
  have lower := areaFraction_one_lower (show (0:ℝ) < 1/2^30 by positivity) (by norm_num)
  have hsqrt : (1:ℝ)/2^16 ≤ Real.sqrt ((1/2^30) / 2) :=
    Real.le_sqrt_of_sq_le (by norm_num)
  have hval : (1:ℝ)/2^48 ≤ areaFraction (1/2^30) 1 := by
    have h1 : (1:ℝ)/2^48 ≤ (1/2^30) * (1/2^16) / Real.pi := by
      rw [le_div_iff Real.pi_pos]
      nlinarith [Real.pi_lt_d2]
    have h2 : (1/2^30) * (1/2^16) / Real.pi ≤
        (1/2^30) * Real.sqrt ((1/2^30) / 2) / Real.pi :=
      (div_le_div_right Real.pi_pos).2
        (mul_le_mul_of_nonneg_left hsqrt (by positivity))
    linarith
  rw [not_le]
  calc (1:ℝ)/10000 * (1/2^100) < 1/2^48 - 1/2^100 := by norm_num
    _ ≤ areaFraction (1/2^30) 1 - 1/2^100 := by linarith
    _ ≤ |areaFraction (1/2^30) 1 - 1/2^100| := le_abs_self _

/-! ### Claim C4: band extents on the radius-10 disk -/

/-- `arcsin x` exceeds `x` for positive `x ≤ 1`. -/
theorem self_lt_arcsin {x : ℝ} (h0 : 0 < x) (h1 : x ≤ 1) : x < Real.arcsin x := by
  have harcpos : 0 < Real.arcsin x := Real.arcsin_pos.2 h0
  have := Real.sin_lt harcpos
  rwa [Real.sin_arcsin (by linarith) h1] at this

/-- Numeric fact: the area fraction at height `0.6` of a radius-10 disk is
below `0.3`. -/
theorem areaFraction_at_point_lt : areaFraction (3/5) 10 < 3/10 := by
  rw [areaFraction_of_mem (by norm_num) (by norm_num),
    show (3:ℝ)/5/10 - 1 = -(47/50) by norm_num]
  have harc : Real.arcsin (-(47/50)) = -Real.arcsin (47/50) := Real.arcsin_neg _
  have hbound : (47:ℝ)/50 < Real.arcsin (47/50) := self_lt_arcsin (by norm_num) (by norm_num)
  have hs := Real.sqrt_nonneg (1 - (-(47/50)) * (-(47/50)) : ℝ)
  have hseg : segArea (-(47/50)) < -(47/50) := by
    rw [segArea, harc]
    nlinarith
  have hpi2 : Real.pi < 3.15 := Real.pi_lt_d2
  have hpi0 : (0:ℝ) < Real.pi := Real.pi_pos
  have key : segArea (-(47/50)) / Real.pi < -(1/5) := by
    rw [div_lt_iff hpi0]
    nlinarith
  linarith

/-- The inverse lookup for fraction `0.3` on the radius-10 disk lies
strictly between `0.5` and `19.5`. -/
theorem areaToHeight_03_bounds :
    1/2 < areaToHeight (3/10) 10 ∧ areaToHeight (3/10) 10 < 39/2 := by
  have h0 : (0:ℝ) < 3/10 := by norm_num
  have h1 : (3:ℝ)/10 < 1 := by norm_num
  have hr : (0:ℝ) < 10 := by norm_num
  obtain ⟨b0, bl, b2⟩ := bisect_bounds (3/10) 10 (by norm_num) 30
  have bw := bisect_width (3/10) 10 30
  obtain ⟨il, ih⟩ := bisect_invariant (3/10) 10 hr h0 h1 30
  set lo := (bisect (3/10) 10 30).1 with hlodef
  set hi := (bisect (3/10) 10 30).2 with hhidef
  have hm : areaToHeight (3/10) 10 = (lo + hi) / 2 := areaToHeight_of_mem h0 h1
  have mono := areaFraction_monotoneOn hr
  have hhi_gt : 3/5 < hi := by
    by_contra hcon
    push_neg at hcon
    have memhi : hi ∈ Icc (0:ℝ) (2 * 10) := ⟨by linarith, b2⟩
    have mem35 : (3/5:ℝ) ∈ Icc (0:ℝ) (2 * 10) := ⟨by norm_num, by norm_num⟩
    have hle : areaFraction hi 10 ≤ areaFraction (3/5) 10 := mono memhi mem35 hcon
    linarith [areaFraction_at_point_lt]
  have hlo_lt : lo < 10 := by
    by_contra hcon
    push_neg at hcon
    have memlo : lo ∈ Icc (0:ℝ) (2 * 10) := ⟨b0, by linarith⟩
    have mem10 : (10:ℝ) ∈ Icc (0:ℝ) (2 * 10) := ⟨by norm_num, by norm_num⟩
    have hge : areaFraction 10 10 ≤ areaFraction lo 10 := mono mem10 memlo hcon
    have hhalf : areaFraction 10 10 = 0.5 := areaFraction_self hr
    rw [hhalf] at hge
    have : (0.5:ℝ) ≤ areaFraction lo 10 := hge
    linarith
  have hsmall : (2:ℝ) * 10 / 2 ^ 30 < 1/10 := by norm_num
  exact ⟨by rw [hm]; linarith, by rw [hm]; linarith⟩

/-- C4 amended (restricted to the spec's radius-10 disk; for small radii the
0.5-unit minimum size suppresses emission): with bottom-up bands `[0.3, 0.7]`
on a radius-10 disk the two emitted rectangles have cumulative extents
`areaToHeight 0.3 10` and `areaToHeight 1 10 = 2 * 10` from the bottom edge
and share their common boundary (zero gap); a single band of proportion 1
spans the full diameter. -/
theorem drawNode_band_extents :
    drawNode 0 0 10 ("clip") ⟨some [⟨3/10, ("a")⟩, ⟨7/10, ("b")⟩], none⟩ ("vertical") none =
      [Shape.rect (-10) (-10) 20 20 ("#bbb"),
        Shape.rect (-10) (10 - areaToHeight (3/10) 10) 20 (areaToHeight (3/10) 10) ("a"),
        Shape.rect (-10) (-10) 20 (20 - areaToHeight (3/10) 10) ("b"),
        Shape.circle 0 0 10] ∧
    areaToHeight 1 10 = 2 * 10 ∧
    drawNode 0 0 10 ("clip") ⟨some [⟨1, ("c")⟩], none⟩ ("vertical") none =
      [Shape.rect (-10) (-10) 20 20 ("#bbb"),
        Shape.rect (-10) (-10) 20 20 ("c"),
        Shape.circle 0 0 10] := by
  obtain ⟨he1, he2⟩ := areaToHeight_03_bounds
  have hc1 : (0.5:ℝ) < areaToHeight (3/10) 10 := by linarith
  have hc1' : (1/2:ℝ) < areaToHeight (3/10) 10 := by linarith
  have hc2 : (0.5:ℝ) < 20 - areaToHeight (3/10) 10 := by linarith
  have hc2' : (1/2:ℝ) < 20 - areaToHeight (3/10) 10 := by linarith
  have hc2'' : (0.5:ℝ) < 2 * 10 - areaToHeight (3/10) 10 := by linarith
  refine ⟨?_, areaToHeight_of_ge_one le_rfl, ?_⟩
  · norm_num [drawNode, bottomUpRects, topDownRects, jsOrString, min_def,
      areaToHeight_of_ge_one, hc1, hc1', hc2, hc2', hc2'']
    have hvne : ("vertical" : String) ≠ "horizontal" := by decide
    rw [if_neg hvne, if_neg hvne]
    rfl
  · norm_num [drawNode, bottomUpRects, topDownRects, jsOrString, min_def,
      areaToHeight_of_ge_one]

end DagUtils
